import Mathlib

/-!
Verification of the RSTM transactional-memory access instrumentation engine.

The development shallowly embeds the byte-level access engine of the
repository:

* `make_mask` follows `stm::inst::make_mask`
  (`src/unnamed/part_000`, also `branches/oneshot-itm/lib/inst-common.hpp`);
* the `INST<T, N, A>` read/write template family follows
  `branches/luke-patrick/libitm2stm/libitm-5.12.cpp`;
* `read_words` / `oneshotWrite` follow `stm::inst::read_words` and
  `stm::inst::write` from `src/unnamed/part_000`;
* `is_stack_write` and the `_ITM_W` barrier follow
  `branches/luke-patrick/libitm2stm/libitm-5.12.cpp`.

Machine words are modelled at byte granularity: a word is a function from
byte index to byte value, memory is a function from flat byte address to
byte value, and addresses are in word units where the source uses `void**`
arithmetic.  The word size is 8 bytes (the 64-bit configuration the spec's
scenarios use).
-/

namespace RSTM

/-- Word size in bytes (`sizeof(void*)` on the 64-bit target). -/
def ws : Nat := 8

/-- Byte `k` (little-endian) of the machine integer `w`. -/
def getByte (w k : Nat) : Nat := (w >>> (8 * k)) % 256

/-- Embedding of `stm::inst::make_mask` (src/unnamed/part_000, lines 50-56):
`mask = ~(uintptr_t)0; mask >>= 8*(sizeof(void*) - j + i); mask <<= 8*i;`
with `uintptr_t` arithmetic taken modulo `2^64`. -/
def make_mask (i j : Nat) : Nat :=
  ((2 ^ (8 * ws) - 1) >>> (8 * (ws - j + i))) <<< (8 * i) % 2 ^ (8 * ws)

/-- Byte-addressed memory: flat byte address to byte value.  Word `a` (in
word units) occupies the byte addresses `[8*a, 8*a + 8)`. -/
abbrev Mem := Nat → Nat

/-- An oracle for the external transactional masked-read primitive
(`tx.tmread` / `alg_tm_read_aligned_word`): word address and mask to the
bytes of the returned word. -/
abbrev Oracle := Nat → Nat → Nat → Nat

/-- The word of `mem` at word address `a`, as a byte function.  This is the
oracle under which the masked-read primitive returns exactly the bytes held
by the memory (the hypothesis of the round-trip law). -/
def memWord (mem : Mem) (a : Nat) : Nat → Nat := fun k => mem (8 * a + k)

/-- Oracle reading straight from a memory, ignoring the mask. -/
def memOracle (mem : Mem) : Oracle := fun a _ k => memWord mem a k

/-- Semantics of the external transactional masked-write primitive
(`tx.tmwrite`): the bytes of word `a` selected by `mask` become the
corresponding bytes of `w`; all other memory is untouched. -/
def tmwrite (mem : Mem) (a : Nat) (w : Nat → Nat) (mask : Nat) : Mem :=
  fun p =>
    if 8 * a ≤ p ∧ p < 8 * a + 8 ∧ getByte mask (p - 8 * a) = 255 then
      w (p - 8 * a)
    else mem p

/-- Modelled from the spec: `base_of` (itm2stm `Utilities.h` is not in src;
spec section 4.2 defines `base` as the address rounded down to the nearest
word boundary).  Returned in word units, so the source's `base + i` pointer
arithmetic on `void**` becomes `base_of addr + i`. -/
def base_of (addr : Nat) : Nat := addr / ws

/-- Modelled from the spec: `offset_of` (itm2stm `Utilities.h` is not in
src; spec section 4.2 defines `offset` as `addr - base`, always less than
the word size). -/
def offset_of (addr : Nat) : Nat := addr % ws

/-- Mask used by `INST<T, N, false>::ReadUnaligned` / `WriteUnaligned`
(libitm-5.12.cpp, lines 61-115) for the word at index `i`: the first word
is masked `[offset, ws)`, the middle words `i = 1 .. N-1` are masked
`[0, ws)`, and the final word `N` is masked `[0, offset)`. -/
def unalignedMask (N off i : Nat) : Nat :=
  if i = 0 then make_mask off ws
  else if i < N then make_mask 0 ws
  else make_mask 0 off

/-- The ordered sequence of `(word index, mask)` transactional accesses
issued by `ReadUnaligned` / `WriteUnaligned`: word `0` masked `[off, ws)`,
words `1 .. N-1` masked full, word `N` masked `[0, off)`. -/
def unalignedIdxMasks (N off : Nat) : List (Nat × Nat) :=
  (0, make_mask off ws) ::
    (((List.range (N - 1)).map fun i => (1 + i, make_mask 0 ws)) ++
      [(N, make_mask 0 off)])

/-- The `(word address, mask)` access sequence of the unaligned path, based
at word address `base`. -/
def unalignedAccesses (N off base : Nat) : List (Nat × Nat) :=
  (unalignedIdxMasks N off).map fun im => (base + im.1, im.2)

/-- The scratch buffer built by `ReadUnaligned`: buffer byte `p` is byte
`p % 8` of the word returned by the transactional read of word
`base + p / 8` (the union `cast` of words `0 .. N`). -/
def readUnalignedBuf (R : Oracle) (N off base : Nat) : Nat → Nat :=
  fun p => R (base + p / ws) (unalignedMask N off (p / ws)) (p % ws)

/-- Result of `INST<T, N, false>::ReadUnaligned`: the bytes
`[off, off + s)` of the scratch buffer, i.e. `*(T*)(cast.to + offset)`. -/
def ReadUnaligned (R : Oracle) (N off s base : Nat) : List Nat :=
  (List.range s).map fun p => readUnalignedBuf R N off base (off + p)

/-- The scratch buffer built by `WriteUnaligned` (and by the oneshot
`stm::inst::write`): zero-initialized, with the value's bytes placed at
`[off, off + s)`. -/
def writeBuf (off s : Nat) (v : Nat → Nat) : Nat → Nat :=
  fun p => if off ≤ p ∧ p < off + s then v (p - off) else 0

/-- A loop of transactional masked word writes: each `(i, mask)` entry of
`L` stores buffer word `i` (bytes `B (ws*i) .. B (ws*i + 7)`) to word
address `base + i` under `mask`, in list order. -/
def writeWordsFold (mem : Mem) (base : Nat) (B : Nat → Nat)
    (L : List (Nat × Nat)) : Mem :=
  L.foldl (fun m im => tmwrite m (base + im.1) (fun k => B (ws * im.1 + k)) im.2) mem

/-- Effect of `INST<T, N, false>::WriteUnaligned` on memory: one
transactional masked write per access of `unalignedIdxMasks`, sending
buffer word `i` to word address `base + i`. -/
def WriteUnaligned (mem : Mem) (N off s base : Nat) (v : Nat → Nat) : Mem :=
  writeWordsFold mem base (writeBuf off s v) (unalignedIdxMasks N off)

/-- The `(word index, mask)` accesses of `INST<T, N, true>` (aligned
N-word accesses): words `0 .. N - 1`, each with the full-word mask. -/
def alignedIdxMasks (N : Nat) : List (Nat × Nat) :=
  (List.range N).map fun i => (i, make_mask 0 ws)

/-- The `(word address, mask)` access sequence of `INST<T, N, true>`
(aligned N-word accesses): words `base .. base + N - 1`, each with the
full-word mask. -/
def alignedAccesses (N base : Nat) : List (Nat × Nat) :=
  (List.range N).map fun i => (base + i, make_mask 0 ws)

/-- Result of `INST<T, N, true>::Read`: the first `s` bytes of the buffer
of words read with full masks from `base`, `base+1`, .... -/
def ReadAligned (R : Oracle) (s base : Nat) : List Nat :=
  (List.range s).map fun p => R (base + p / ws) (make_mask 0 ws) (p % ws)

/-- Effect of `INST<T, N, true>::Write` on memory: word `i` of the value is
written to word address `base + i` with the full-word mask. -/
def WriteAligned (mem : Mem) (N base : Nat) (v : Nat → Nat) : Mem :=
  writeWordsFold mem base v (alignedIdxMasks N)

/-- Result of `INST<T, 0u, true>::Read` (non-overflowing subword): a single
transactional read of word `base` masked `[off, off + s)`; the value is the
bytes `[off, off + s)` of the returned word. -/
def ReadSubword (R : Oracle) (off s base : Nat) : List Nat :=
  (List.range s).map fun p => R base (make_mask off (off + s)) (off + p)

/-- Effect of `INST<T, 0u, true>::Write` (non-overflowing subword): a
single transactional write of the zero-padded buffer word holding the
value at `[off, off + s)`, masked `[off, off + s)`. -/
def WriteSubword (mem : Mem) (off s base : Nat) (v : Nat → Nat) : Mem :=
  tmwrite mem base (writeBuf off s v) (make_mask off (off + s))

/-- The `(word address, mask)` sequence of transactional accesses issued by
the `INST<T>` dispatch for a value of `s` bytes at byte address `addr`, on
the unaligned-capable target: subword types (`s < ws`, template parameter
`N = 0`) take the overflow check of `INST<T, 0u, false>`, word and
multiword types take the `offset == 0` check of `INST<T, N, false>`. -/
def instTrace (s addr : Nat) : List (Nat × Nat) :=
  if s < ws then
    if offset_of addr + s ≤ ws then
      [(base_of addr, make_mask (offset_of addr) (offset_of addr + s))]
    else unalignedAccesses 1 (offset_of addr) (base_of addr)
  else
    if offset_of addr = 0 then alignedAccesses (s / ws) (base_of addr)
    else unalignedAccesses (s / ws) (offset_of addr) (base_of addr)

/-- Value returned by the `INST<T>::Read` dispatch for a value of `s` bytes
at byte address `addr` (libitm-5.12.cpp: `INST<T, 0u, false>::Read` for
subword types, `INST<T, N, false>::Read` otherwise). -/
def instRead (R : Oracle) (s addr : Nat) : List Nat :=
  if s < ws then
    if offset_of addr + s ≤ ws then ReadSubword R (offset_of addr) s (base_of addr)
    else ReadUnaligned R 1 (offset_of addr) s (base_of addr)
  else
    if offset_of addr = 0 then ReadAligned R s (base_of addr)
    else ReadUnaligned R (s / ws) (offset_of addr) s (base_of addr)

/-- Effect on memory of the `INST<T>::Write` dispatch for a value of `s`
bytes at byte address `addr`. -/
def instWrite (mem : Mem) (s addr : Nat) (v : Nat → Nat) : Mem :=
  if s < ws then
    if offset_of addr + s ≤ ws then WriteSubword mem (offset_of addr) s (base_of addr) v
    else WriteUnaligned mem 1 (offset_of addr) s (base_of addr) v
  else
    if offset_of addr = 0 then WriteAligned mem (s / ws) (base_of addr) v
    else WriteUnaligned mem (s / ws) (offset_of addr) s (base_of addr) v

/-- The value `v` of size `s`, as the byte list a caller would compare a
read result against. -/
def valBytes (s : Nat) (v : Nat → Nat) : List Nat :=
  (List.range s).map v

/-- The stack-related state consulted by `is_stack_write`
(libitm-5.12.cpp, lines 272-289): the current call frame address
(`__builtin_frame_address(0)`), the innermost scope's stack-high watermark
(`tx->inner()->stackHigh()`), and the outermost scope's stack-high
watermark (`tx->outer()->stackHigh()`). -/
structure StackCtx where
  frame : Nat
  innerHigh : Nat
  outerHigh : Nat

/-- Observable actions of a write barrier: an undo-log append
(`tx->inner()->log(address)`), a plain in-place store (`*address = value`),
or a transactional masked word write (`tx.tmwrite`). -/
inductive Event where
  | log : Nat → Event
  | store : Nat → Event
  | tmw : Nat → Nat → Event
deriving DecidableEq

/-- Embedding of `is_stack_write` (libitm-5.12.cpp, lines 272-289): the
returned flag says whether the write is handled as a plain stack store, and
the event list records the undo-log append the function performs when the
address lies between the inner and outer scopes' watermarks. -/
def is_stack_write (c : StackCtx) (addr : Nat) : Bool × List Event :=
  if addr < c.frame then (false, [])
  else if c.outerHigh < addr then (false, [])
  else if addr < c.innerHigh then (true, [])
  else (true, [Event.log addr])

/-- The transactional accesses of the instrumented `INST<TYPE>::Write`
path, as barrier events. -/
def instWriteEvents (s addr : Nat) : List Event :=
  (instTrace s addr).map fun am => Event.tmw am.1 am.2

/-- Embedding of the `_ITM_W` / `_ITM_WaR` / `_ITM_WaW` barrier body
(libitm-5.12.cpp, `BARRIERS` macro, lines 324-349): run `is_stack_write`;
on `true` perform the plain store (after whatever logging `is_stack_write`
already did), otherwise run the instrumented write. -/
def itmWrite (c : StackCtx) (s addr : Nat) : List Event :=
  if (is_stack_write c addr).1 then (is_stack_write c addr).2 ++ [Event.store addr]
  else instWriteEvents s addr

/-- Predicate picking out undo-log append events. -/
def isLogEvent : Event → Bool
  | Event.log _ => true
  | _ => false

/-- Modelled from the spec: `Buffer<T, ALIGNED>::Words`
(`inst-buffer.hpp` is not in src).  Per spec section 4.2 and the Value
Buffer entry of the data model, the scratch buffer holds the smallest
number of words that the byte range `[offset, offset + s)` can span: for an
aligned type `ceil(s / ws)` (at least one), and for a potentially unaligned
type one more word, since the range may spill across a word boundary. -/
def BufferWords (s : Nat) (aligned : Bool) : Nat :=
  if aligned then max 1 ((s + ws - 1) / ws) else (s + ws - 1) / ws + 1

/-- An always-miss read-after-write policy: `hit` finds no buffered write
(the `NoRAW` situation, and the hypothesis under which the round-trip claim
is stated).  A `some` result would model `raw.hit` copying the buffered
word into the destination slot. -/
def noHit : Nat → Nat → Option (Nat → Nat) := fun _ _ => none

/-- Update one word slot of the word-indexed scratch buffer. -/
def setSlot (f : Nat → Nat → Nat) (i : Nat) (w : Nat → Nat) : Nat → Nat → Nat :=
  fun j => if j = i then w else f j

/-- Embedding of `stm::inst::read_words` (src/unnamed/part_000, lines
75-102) over buffer `Words = W`: the first word is fetched with mask
`[off, min(ws, off + s))` into slot 0; words `1 .. W-2` are fetched with
the full mask into their slots; then, if `W > 1` and `off ≠ 0`, the last
access reads word `base + W` with mask `[0, off)` — on a read-after-write
hit the buffered word lands in slot `W - 1` (`words[N - 1]`), on a miss the
fetched word is merged into slot `W` (`words[N]`).  Merging a fetched word
into a slot is modelled from the spec (`inst-raw.hpp` is not in src): the
fetched word becomes the slot's contents. -/
def read_words (R : Oracle) (H : Nat → Nat → Option (Nat → Nat))
    (W off s base : Nat) (init : Nat → Nat → Nat) : Nat → Nat → Nat :=
  let m0 := make_mask off (min ws (off + s))
  let slots0 :=
    match H base m0 with
    | some w => setSlot init 0 w
    | none => setSlot init 0 (R base m0)
  let slots1 := (List.range (W - 1 - 1)).foldl
    (fun f i =>
      match H (base + (1 + i)) (make_mask 0 ws) with
      | some w => setSlot f (1 + i) w
      | none => setSlot f (1 + i) (R (base + (1 + i)) (make_mask 0 ws)))
    slots0
  if 1 < W ∧ off ≠ 0 then
    match H (base + W) (make_mask 0 off) with
    | some w => setSlot slots1 (W - 1) w
    | none => setSlot slots1 W (R (base + W) (make_mask 0 off))
  else slots1

/-- Result of `stm::inst::read` (src/unnamed/part_000, lines 116-149) once
the prefilter has declined: the bytes `[off, off + s)` of the buffer filled
by `read_words`, i.e. `*reinterpret_cast<T*>(bytes + off)`.  The initially
uninitialized stack buffer is `init`. -/
def oneshotRead (R : Oracle) (H : Nat → Nat → Option (Nat → Nat))
    (W off s base : Nat) (init : Nat → Nat → Nat) : List Nat :=
  (List.range s).map fun p =>
    read_words R H W off s base init ((off + p) / ws) ((off + p) % ws)

/-- The ordered `(word index, mask)` accesses issued by
`stm::inst::read_words`: word `0` masked `[off, min(ws, off + s))`, words
`1 .. W-2` masked full, and — when `W > 1` and `off ≠ 0` — word `W` (not
`W - 1`) masked `[0, off)`. -/
def oneshotReadIdxMasks (W off s : Nat) : List (Nat × Nat) :=
  (0, make_mask off (min ws (off + s))) ::
    (((List.range (W - 1 - 1)).map fun i => (1 + i, make_mask 0 ws)) ++
      (if 1 < W ∧ off ≠ 0 then [(W, make_mask 0 off)] else []))

/-- The word addresses touched by `stm::inst::read_words`, in issue
order. -/
def oneshotReadAddrs (W off s base : Nat) : List Nat :=
  (oneshotReadIdxMasks W off s).map fun im => base + im.1

/-- The ordered `(word index, buffer word index, mask)` stores issued by
`stm::inst::write` (src/unnamed/part_000, lines 186-201): word `0` gets
buffer word `0` masked `[off, min(ws, off + s))`, words `1 .. W-2` get
their buffer words masked full, and — when `W > 1` and `off ≠ 0` — word
`W` gets buffer word `W - 1` (`write(base + N, words[N - 1], ...)`) masked
`[0, off)`. -/
def oneshotWriteIdxMasks (W off s : Nat) : List (Nat × Nat × Nat) :=
  (0, 0, make_mask off (min ws (off + s))) ::
    (((List.range (W - 1 - 1)).map fun i => (1 + i, 1 + i, make_mask 0 ws)) ++
      (if 1 < W ∧ off ≠ 0 then [(W, W - 1, make_mask 0 off)] else []))

/-- Effect of `stm::inst::write` on memory once the prefilter has declined:
the value is placed at `[off, off + s)` of a zeroed scratch buffer and the
stores of `oneshotWriteIdxMasks` are issued in order. -/
def oneshotWrite (mem : Mem) (W off s base : Nat) (v : Nat → Nat) : Mem :=
  (oneshotWriteIdxMasks W off s).foldl
    (fun m t => tmwrite m (base + t.1) (fun k => writeBuf off s v (ws * t.2.1 + k)) t.2.2)
    mem

/-! ## Mask arithmetic -/

/-- Bounded version of the mask byte characterization, checked by evaluation
over all in-range arguments. -/
theorem make_mask_byte_fin :
    ∀ (i : Fin 8) (j : Fin 9) (k : Fin 8), i.val < j.val →
      getByte (make_mask i.val j.val) k.val =
        (if i.val ≤ k.val ∧ k.val < j.val then 255 else 0) := by
  decide

/-- Byte `k` of `make_mask i j` is `0xFF` inside `[i, j)` and `0x00`
outside, for all in-range arguments (helper form, shared by the proofs
below). -/
theorem getByte_make_mask (i j k : Nat) (hij : i < j) (hj : j ≤ ws) (hk : k < ws) :
    getByte (make_mask i j) k = (if i ≤ k ∧ k < j then 255 else 0) := by
  have hj8 : j ≤ 8 := hj
  have hk8 : k < 8 := hk
  have hi : i < 8 := lt_of_lt_of_le hij hj8
  exact make_mask_byte_fin ⟨i, hi⟩ ⟨j, by omega⟩ ⟨k, hk8⟩ hij

/-- Helper: a byte inside the range `[i, j)` of a well-formed mask is
selected. -/
theorem getByte_make_mask_sel (i j k : Nat) (hij : i < j) (hj : j ≤ ws)
    (hk : k < ws) (h1 : i ≤ k) (h2 : k < j) :
    getByte (make_mask i j) k = 255 := by
  rw [getByte_make_mask i j k hij hj hk, if_pos ⟨h1, h2⟩]

/-- C2: for all `0 ≤ i < j ≤ wordsize`, `make_mask i j` returns a word
whose bytes in `[i, j)` are all `0xFF` and whose bytes outside `[i, j)`
are all `0x00`; equivalently, byte `k` of the result is `0xFF` iff
`i ≤ k < j`. -/
theorem c2_make_mask_bytes (i j k : Nat) (hij : i < j) (hj : j ≤ ws) (hk : k < ws) :
    (getByte (make_mask i j) k = if i ≤ k ∧ k < j then 255 else 0) ∧
    (getByte (make_mask i j) k = 255 ↔ i ≤ k ∧ k < j) := by
  have hj8 : j ≤ 8 := hj
  have hk8 : k < 8 := hk
  have hi : i < 8 := lt_of_lt_of_le hij hj8
  have h := make_mask_byte_fin ⟨i, hi⟩ ⟨j, by omega⟩ ⟨k, hk8⟩ hij
  refine ⟨h, ?_⟩
  rw [h]
  by_cases hcase : i ≤ k ∧ k < j
  · rw [if_pos hcase]
    exact iff_of_true rfl hcase
  · rw [if_neg hcase]
    exact iff_of_false (by omega) hcase

/-- Witness for C2 at `i = 2`, `j = 5`: byte 3 is selected and byte 6 is
not. -/
theorem c2_make_mask_bytes_witness :
    getByte (make_mask 2 5) 3 = 255 ∧ getByte (make_mask 2 5) 6 = 0 := by
  have h1 := (c2_make_mask_bytes 2 5 3 (by decide) (by decide) (by decide)).1
  have h2 := (c2_make_mask_bytes 2 5 6 (by decide) (by decide) (by decide)).1
  exact ⟨h1.trans (by decide), h2.trans (by decide)⟩

/-! ## Stack-locality fast path -/

/-- C5: for every write address, the stack-locality check applies the
ordered decision procedure and yields exactly one of three outcomes: an
address below the current frame pointer takes the instrumented write, an
address above the outer scope's stack-high watermark takes the instrumented
write, an address below the inner scope's stack-high watermark is stored
in place with no undo logging, and an address between the two watermarks is
stored in place after an undo-log append. -/
theorem c5_stack_write_trichotomy (c : StackCtx) (s addr : Nat) :
    itmWrite c s addr =
      if addr < c.frame then instWriteEvents s addr
      else if c.outerHigh < addr then instWriteEvents s addr
      else if addr < c.innerHigh then [Event.store addr]
      else [Event.log addr, Event.store addr] := by
  unfold itmWrite is_stack_write
  by_cases h1 : addr < c.frame
  · simp only [if_pos h1]
    rfl
  · simp only [if_neg h1]
    by_cases h2 : c.outerHigh < addr
    · simp only [if_pos h2]
      rfl
    · simp only [if_neg h2]
      by_cases h3 : addr < c.innerHigh
      · simp only [if_pos h3]
        rfl
      · simp only [if_neg h3]
        rfl

/-- Helper: a write whose address lies at or above the frame pointer, at or
below the outer watermark and at or above the inner watermark produces
exactly the event sequence undo-log append followed by plain store. -/
theorem stackWrite_between (c : StackCtx) (s addr : Nat)
    (h1 : c.frame ≤ addr) (h2 : addr ≤ c.outerHigh) (h3 : c.innerHigh ≤ addr) :
    itmWrite c s addr = [Event.log addr, Event.store addr] := by
  unfold itmWrite is_stack_write
  rw [if_neg (Nat.not_lt.mpr h1), if_neg (Nat.not_lt.mpr h2), if_neg (Nat.not_lt.mpr h3)]
  rfl

/-- C6: for every write that receives the undo-logging stack-local
treatment (address between the inner and outer stack-high watermarks), the
undo-log append occurs before the new value is stored; the append is never
elided (it occurs exactly once) and never reordered after the store. -/
theorem c6_undo_log_before_store (c : StackCtx) (s addr : Nat)
    (h1 : c.frame ≤ addr) (h2 : addr ≤ c.outerHigh) (h3 : c.innerHigh ≤ addr) :
    itmWrite c s addr = [Event.log addr, Event.store addr] ∧
    (itmWrite c s addr).filter isLogEvent = [Event.log addr] := by
  have h := stackWrite_between c s addr h1 h2 h3
  rw [h]
  exact ⟨rfl, rfl⟩

/-- Witness for C6 at frame 0, inner watermark 10, outer watermark 20,
address 15. -/
theorem c6_undo_log_before_store_witness :
    itmWrite ⟨0, 10, 20⟩ 8 15 = [Event.log 15, Event.store 15] ∧
    (itmWrite ⟨0, 10, 20⟩ 8 15).filter isLogEvent = [Event.log 15] :=
  c6_undo_log_before_store ⟨0, 10, 20⟩ 8 15 (by decide) (by decide) (by decide)

/-- C9 counterexample: at frame 0, inner watermark 300, outer watermark
150, the address 299 is one byte below the inner watermark and above the
outer watermark, yet the write performs zero undo-log appends (it is not
treated as stack-local at all), contradicting the claimed single append
before the store. -/
theorem c9_counterexample :
    ((299 : Nat) + 1 = 300 ∧ (150 : Nat) < 299) ∧
    (itmWrite ⟨0, 300, 150⟩ 8 299).filter isLogEvent = [] ∧
    itmWrite ⟨0, 300, 150⟩ 8 299 = instWriteEvents 8 299 := by
  decide

/-- C9 (amended): a write to an address one byte above the inner scope's
stack-high watermark, at or below the outer scope's watermark and at or
above the frame pointer, triggers exactly one undo-log append before the
store. -/
theorem c9_amended_one_log_before_store (c : StackCtx) (s : Nat)
    (h1 : c.frame ≤ c.innerHigh + 1) (h2 : c.innerHigh + 1 ≤ c.outerHigh) :
    itmWrite c s (c.innerHigh + 1) =
      [Event.log (c.innerHigh + 1), Event.store (c.innerHigh + 1)] ∧
    (itmWrite c s (c.innerHigh + 1)).filter isLogEvent =
      [Event.log (c.innerHigh + 1)] := by
  have h := stackWrite_between c s (c.innerHigh + 1) h1 h2 (Nat.le_succ _)
  rw [h]
  exact ⟨rfl, rfl⟩

/-- Witness for the amended C9 at frame 0, inner watermark 10, outer
watermark 20 (written address 11). -/
theorem c9_amended_witness :
    itmWrite ⟨0, 10, 20⟩ 8 11 = [Event.log 11, Event.store 11] ∧
    (itmWrite ⟨0, 10, 20⟩ 8 11).filter isLogEvent = [Event.log 11] :=
  c9_amended_one_log_before_store ⟨0, 10, 20⟩ 8 (by decide) (by decide)

/-! ## The oneshot engine's unaligned path (src/unnamed/part_000) -/

/-- C4 (failing evaluation): for an unaligned two-word access (8-byte
value at byte offset 4, buffer of `BufferWords 8 false = 2` words), the
word addresses issued by `stm::inst::read_words` are `base` and `base + 2`:
the sequence skips `base + 1` and is not contiguous from the base, because
the last access goes to `base + N` where `N` is the buffer word count, one
past the last word the value's byte range touches. -/
theorem c4_oneshot_read_addrs_not_contiguous :
    oneshotReadAddrs (BufferWords 8 false) 4 8 0 = [0, 2] ∧
    oneshotReadAddrs (BufferWords 8 false) 4 8 0 ≠
      List.range' 0 (oneshotReadAddrs (BufferWords 8 false) 4 8 0).length := by
  decide

/-- C1 (failing evaluation): writing the 8-byte value `[1,2,3,4,5,6,7,8]`
at byte address 4 (offset 4, word-spanning) through `stm::inst::write` and
reading it back through `stm::inst::read` with an always-miss
read-after-write policy over a memory whose masked reads return exactly the
bytes last stored returns `[1,2,3,4,0,0,0,0]`, not the written value: the
write sends the value's upper half to word `base + 2` instead of
`base + 1`, and the read merges the last fetched word into buffer slot
`W = 2` (`words[N]`, one past the `N`-word buffer) while the result is
assembled from slots 0 and 1. -/
theorem c1_oneshot_roundtrip_fails :
    oneshotRead
        (memOracle (oneshotWrite (fun _ => 0) (BufferWords 8 false) 4 8 0 (fun p => p + 1)))
        noHit (BufferWords 8 false) 4 8 0 (fun _ _ => 0) = [1, 2, 3, 4, 0, 0, 0, 0] ∧
    oneshotRead
        (memOracle (oneshotWrite (fun _ => 0) (BufferWords 8 false) 4 8 0 (fun p => p + 1)))
        noHit (BufferWords 8 false) 4 8 0 (fun _ _ => 0) ≠
      valBytes 8 (fun p => p + 1) := by
  decide

/-- Supporting contrast for C1: the itm2stm `INST` engine round-trips the
same inputs exactly — the 8-byte value at offset 4, a 16-byte aligned
value, an overflowing 4-byte subword at offset 6, and a 1-byte subword at
offset 7 — under the same memory semantics. -/
theorem inst_roundtrip_examples :
    instRead (memOracle (instWrite (fun _ => 0) 8 4 (fun p => p + 1))) 8 4 =
      valBytes 8 (fun p => p + 1) ∧
    instRead (memOracle (instWrite (fun _ => 0) 16 0 (fun p => 100 + p))) 16 0 =
      valBytes 16 (fun p => 100 + p) ∧
    instRead (memOracle (instWrite (fun _ => 0) 4 6 (fun p => 50 + p))) 4 6 =
      valBytes 4 (fun p => 50 + p) ∧
    instRead (memOracle (instWrite (fun _ => 0) 1 7 (fun _ => 77))) 1 7 =
      valBytes 1 (fun _ => 77) := by
  decide

/-! ## Access-shape dispatch of the itm2stm INST engine -/

/-- Helper: one-plus-one arithmetic for the unaligned access count. -/
theorem unalignedAccesses_length (N off base : Nat) (hN : 1 ≤ N) :
    (unalignedAccesses N off base).length = N + 1 := by
  simp only [unalignedAccesses, unalignedIdxMasks, List.length_map, List.length_cons,
    List.length_append, List.length_range, List.length_nil]
  omega

/-- C3: for an unaligned multiword access the engine issues exactly `N + 1`
transactional word accesses — the first masked `[offset, ws)`, the middle
ones masked `[0, ws)`, the final one masked `[0, offset)` — and in
particular an 8-byte value at offset 4 issues exactly the two accesses with
masks `[4, 8)` and `[0, 4)`; the oneshot `stm::inst::write` issues the same
mask sequence for that scenario. -/
theorem c3_unaligned_issues_n_plus_one (s addr : Nat)
    (hdvd : ws ∣ s) (hs : ws ≤ s) (hoff : offset_of addr ≠ 0) :
    (instTrace s addr).length = s / ws + 1 ∧
    (instTrace s addr).map Prod.snd =
      make_mask (offset_of addr) ws ::
        (List.replicate (s / ws - 1) (make_mask 0 ws) ++ [make_mask 0 (offset_of addr)]) ∧
    instTrace 8 4 = [(0, make_mask 4 8), (1, make_mask 0 4)] ∧
    (instTrace 8 4).length = 2 ∧
    (oneshotWriteIdxMasks (BufferWords 8 false) 4 8).map (fun t => t.2.2) =
      [make_mask 4 8, make_mask 0 4] := by
  have hlt : ¬ s < ws := not_lt.mpr hs
  have hN : 1 ≤ s / ws := (Nat.one_le_div_iff (by decide)).mpr hs
  refine ⟨?_, ?_, by decide, by decide, by decide⟩
  · rw [instTrace, if_neg hlt, if_neg hoff]
    exact unalignedAccesses_length _ _ _ hN
  · rw [instTrace, if_neg hlt, if_neg hoff]
    simp only [unalignedAccesses, unalignedIdxMasks, List.map_map, List.map_cons,
      List.map_append, List.map_nil, Function.comp_def, List.map_const', List.length_range]

/-- Witness for C3: the 8-byte value at byte offset 4 on the 8-byte-word
system issues exactly `8 / ws + 1 = 2` transactional accesses, with masks
`[4, 8)` and `[0, 4)` at the contiguous word addresses 0 and 1. -/
theorem c3_witness :
    (instTrace 8 4).length = 8 / ws + 1 ∧
    instTrace 8 4 = [(0, make_mask 4 8), (1, make_mask 0 4)] := by
  have h := c3_unaligned_issues_n_plus_one 8 4 (by decide) (by decide) (by decide)
  exact ⟨h.1, h.2.2.1⟩

/-- C7: for a subword value whose byte range does not cross a word boundary
(`offset + s ≤ ws`), both the read and the write issue exactly one
transactional masked access, with mask `[offset, offset + s)`. -/
theorem c7_subword_single_access (s addr : Nat) (hs : s < ws)
    (hov : offset_of addr + s ≤ ws) :
    instTrace s addr =
      [(base_of addr, make_mask (offset_of addr) (offset_of addr + s))] ∧
    (instTrace s addr).length = 1 ∧
    (∀ R : Oracle, instRead R s addr = (List.range s).map fun p =>
      R (base_of addr) (make_mask (offset_of addr) (offset_of addr + s))
        (offset_of addr + p)) ∧
    (∀ (mem : Mem) (v : Nat → Nat), instWrite mem s addr v =
      tmwrite mem (base_of addr) (writeBuf (offset_of addr) s v)
        (make_mask (offset_of addr) (offset_of addr + s))) := by
  refine ⟨?_, ?_, fun R => ?_, fun mem v => ?_⟩
  · rw [instTrace, if_pos hs, if_pos hov]
  · rw [instTrace, if_pos hs, if_pos hov]
    rfl
  · rw [instRead, if_pos hs, if_pos hov, ReadSubword]
  · rw [instWrite, if_pos hs, if_pos hov, WriteSubword]

/-- Witness for C7: a 1-byte value at byte offset 7 uses exactly one
transactional access with mask `[7, 8)`. -/
theorem c7_subword_single_access_witness :
    instTrace 1 7 = [(0, make_mask 7 8)] ∧ (instTrace 1 7).length = 1 := by
  have h := c7_subword_single_access 1 7 (by decide) (by decide)
  exact ⟨h.1, h.2.1⟩

/-- C8: a subword access whose byte range crosses a word boundary
(`ws < offset + s`) behaves identically — same result, same memory effect,
same word addresses and masks — to the generic unaligned path instantiated
with `N = 1`, while a non-crossing subword access takes the single-access
subword strategy instead. -/
theorem c8_overflow_subword_equals_unaligned_n1 (s addr : Nat) (hs : s < ws) :
    (ws < offset_of addr + s →
      (∀ R : Oracle, instRead R s addr =
        ReadUnaligned R 1 (offset_of addr) s (base_of addr)) ∧
      (∀ (mem : Mem) (v : Nat → Nat), instWrite mem s addr v =
        WriteUnaligned mem 1 (offset_of addr) s (base_of addr) v) ∧
      instTrace s addr = unalignedAccesses 1 (offset_of addr) (base_of addr)) ∧
    (offset_of addr + s ≤ ws →
      (∀ R : Oracle, instRead R s addr =
        ReadSubword R (offset_of addr) s (base_of addr)) ∧
      (∀ (mem : Mem) (v : Nat → Nat), instWrite mem s addr v =
        WriteSubword mem (offset_of addr) s (base_of addr) v) ∧
      instTrace s addr =
        [(base_of addr, make_mask (offset_of addr) (offset_of addr + s))]) := by
  constructor
  · intro hov
    have hn : ¬ offset_of addr + s ≤ ws := not_le.mpr hov
    exact ⟨fun R => by rw [instRead, if_pos hs, if_neg hn],
      fun mem v => by rw [instWrite, if_pos hs, if_neg hn],
      by rw [instTrace, if_pos hs, if_neg hn]⟩
  · intro hov
    exact ⟨fun R => by rw [instRead, if_pos hs, if_pos hov],
      fun mem v => by rw [instWrite, if_pos hs, if_pos hov],
      by rw [instTrace, if_pos hs, if_pos hov]⟩

/-- Witness for C8: the 4-byte value at byte offset 6 overflows the word
boundary, and its trace and read coincide with the generic unaligned `N=1`
path. -/
theorem c8_overflow_subword_witness :
    instTrace 4 6 = unalignedAccesses 1 6 0 ∧
    (∀ R : Oracle, instRead R 4 6 = ReadUnaligned R 1 6 4 0) := by
  have h := (c8_overflow_subword_equals_unaligned_n1 4 6 (by decide)).1 (by decide)
  exact ⟨h.2.2, h.1⟩

/-- Supporting: the word addresses of the itm2stm unaligned access
sequence are contiguous from the base — `base, base+1, ..., base+N`. -/
theorem unalignedAccesses_addrs_contiguous (N off base : Nat) (hN : 1 ≤ N) :
    (unalignedAccesses N off base).map Prod.fst = List.range' base (N + 1) := by
  obtain ⟨M, rfl⟩ : ∃ M, N = M + 1 := ⟨N - 1, by omega⟩
  simp only [unalignedAccesses, unalignedIdxMasks, List.map_map, List.map_cons,
    List.map_append, List.map_nil, Function.comp_def, Nat.add_sub_cancel]
  rw [List.range'_succ]
  congr 1
  rw [List.range'_concat, List.range'_eq_map_range]
  congr 1
  · exact List.map_congr_left fun i _ => by omega
  · simp only [List.cons.injEq, and_true]
    omega

/-- Supporting: the word addresses of the itm2stm aligned access sequence
are contiguous from the base — `base, base+1, ..., base+N-1`. -/
theorem alignedAccesses_addrs_contiguous (N base : Nat) :
    (alignedAccesses N base).map Prod.fst = List.range' base N := by
  simp only [alignedAccesses, List.map_map, Function.comp_def]
  rw [List.range'_eq_map_range]

/-- Supporting contrast for C4: for every supported access shape, the word
addresses issued by the itm2stm `INST` engine are strictly increasing and
contiguous starting from the word-aligned base. -/
theorem inst_trace_addrs_contiguous (s addr : Nat) :
    (instTrace s addr).map Prod.fst =
      List.range' (base_of addr) (instTrace s addr).length := by
  by_cases hs : s < ws
  · by_cases hov : offset_of addr + s ≤ ws
    · rw [instTrace, if_pos hs, if_pos hov]
      rfl
    · rw [instTrace, if_pos hs, if_neg hov,
        unalignedAccesses_length 1 _ _ (le_refl 1)]
      exact unalignedAccesses_addrs_contiguous 1 _ _ (le_refl 1)
  · have hN : 1 ≤ s / ws := (Nat.one_le_div_iff (by decide)).mpr (not_lt.mp hs)
    by_cases hoff : offset_of addr = 0
    · rw [instTrace, if_neg hs, if_pos hoff]
      rw [show (alignedAccesses (s / ws) (base_of addr)).length = s / ws by
        simp [alignedAccesses]]
      exact alignedAccesses_addrs_contiguous (s / ws) (base_of addr)
    · rw [instTrace, if_neg hs, if_neg hoff,
        unalignedAccesses_length _ _ _ hN]
      exact unalignedAccesses_addrs_contiguous (s / ws) _ _ hN

/-! ## The read result depends only on mask-selected bytes -/

/-- Helper: every word index `q ≤ N` occurs in the unaligned access
sequence, paired with its mask. -/
theorem mem_unalignedAccesses (N off base q : Nat) (hN : 1 ≤ N) (hq : q ≤ N) :
    (base + q, unalignedMask N off q) ∈ unalignedAccesses N off base := by
  unfold unalignedAccesses unalignedIdxMasks unalignedMask
  rcases Nat.eq_zero_or_pos q with rfl | hpos
  · simp
  · rcases Nat.lt_or_ge q N with hlt | hge
    · rw [if_neg (by omega), if_pos hlt]
      simp only [List.map_cons, List.map_append, List.map_map, List.map_nil,
        List.mem_cons, List.mem_append, List.mem_map, Function.comp_def, List.mem_range]
      refine Or.inr (Or.inl ⟨q - 1, by omega, ?_⟩)
      simp only [Prod.mk.injEq]
      exact ⟨by omega, by trivial⟩
    · have hqN : q = N := by omega
      subst hqN
      rw [if_neg (by omega), if_neg (by omega)]
      simp

/-- Helper: congruence for the unaligned read path — two oracles agreeing
on the mask-selected bytes of every issued access produce the same read
result. -/
theorem readUnaligned_congr (R1 R2 : Oracle) (N off s base : Nat)
    (hN : 1 ≤ N) (hoff0 : off ≠ 0) (hoff : off < ws) (hsN : s ≤ ws * N)
    (hagree : ∀ a m, (a, m) ∈ unalignedAccesses N off base →
      ∀ k, k < ws → getByte m k = 255 → R1 a m k = R2 a m k) :
    ReadUnaligned R1 N off s base = ReadUnaligned R2 N off s base := by
  unfold ReadUnaligned readUnalignedBuf
  apply List.map_congr_left
  intro p hp
  have hp' : p < s := List.mem_range.mp hp
  have hws : ws = 8 := rfl
  have hoff8 : off < 8 := hoff
  have hsN8 : s ≤ 8 * N := hsN
  have hdm := Nat.div_add_mod (off + p) 8
  have hmlt : (off + p) % 8 < 8 := Nat.mod_lt _ (by decide)
  have hq : (off + p) / 8 ≤ N := by
    have h2 : (off + p) / 8 < N + 1 := Nat.div_lt_of_lt_mul (by omega)
    omega
  have hqws : (off + p) / ws = (off + p) / 8 := by rw [hws]
  have hmws : (off + p) % ws = (off + p) % 8 := by rw [hws]
  rw [hqws, hmws]
  refine hagree _ _ (mem_unalignedAccesses N off base _ hN hq) _ hmlt ?_
  rcases Nat.eq_zero_or_pos ((off + p) / 8) with hq0 | hqpos
  · have ht8 : off + p < 8 := by
      by_contra hcon
      have h1 : 1 ≤ (off + p) / 8 := (Nat.one_le_div_iff (by decide)).mpr (by omega)
      omega
    rw [hq0]
    have hmod : (off + p) % 8 = off + p := Nat.mod_eq_of_lt ht8
    rw [hmod]
    unfold unalignedMask
    rw [if_pos rfl]
    exact getByte_make_mask_sel off ws (off + p) hoff (le_refl _) ht8
      (by omega) ht8
  · rcases Nat.lt_or_ge ((off + p) / 8) N with hqN | hqN
    · unfold unalignedMask
      rw [if_neg (by omega), if_pos hqN]
      exact getByte_make_mask_sel 0 ws ((off + p) % 8) (by decide) (le_refl _)
        hmlt (Nat.zero_le _) hmlt
    · have hqeq : (off + p) / 8 = N := by omega
      have hrlt : (off + p) % 8 < off := by omega
      unfold unalignedMask
      rw [if_neg (by omega), if_neg (by omega)]
      exact getByte_make_mask_sel 0 off ((off + p) % 8) (by omega) (by omega)
        hmlt (Nat.zero_le _) hrlt

/-- Helper: congruence for the aligned read path. -/
theorem readAligned_congr (R1 R2 : Oracle) (s base N : Nat) (hsN : s = ws * N)
    (hagree : ∀ a m, (a, m) ∈ alignedAccesses N base →
      ∀ k, k < ws → getByte m k = 255 → R1 a m k = R2 a m k) :
    ReadAligned R1 s base = ReadAligned R2 s base := by
  unfold ReadAligned
  apply List.map_congr_left
  intro p hp
  have hp' : p < s := List.mem_range.mp hp
  have hws : ws = 8 := rfl
  have hsN8 : s = 8 * N := hsN
  have hqlt : p / ws < N := by
    rw [hws]
    exact Nat.div_lt_of_lt_mul (by omega)
  have hmem : (base + p / ws, make_mask 0 ws) ∈ alignedAccesses N base := by
    unfold alignedAccesses
    simp only [List.mem_map, List.mem_range]
    exact ⟨p / ws, hqlt, rfl⟩
  refine hagree _ _ hmem _ (Nat.mod_lt _ (by decide)) ?_
  exact getByte_make_mask_sel 0 ws (p % ws) (by decide) (le_refl _)
    (Nat.mod_lt _ (by decide)) (Nat.zero_le _) (Nat.mod_lt _ (by decide))

/-- C10: the value returned by an instrumented read depends only on the
bytes of the fetched words selected by the mask passed with each access:
two oracles that agree on all mask-selected bytes of every access in the
trace yield bit-identical read results, whatever the bytes outside the
masks. -/
theorem c10_read_masked_byte_dependence (s addr : Nat) (R1 R2 : Oracle)
    (hs1 : 1 ≤ s) (hsup : s < ws ∨ ws ∣ s)
    (hagree : ∀ a m, (a, m) ∈ instTrace s addr →
      ∀ k, k < ws → getByte m k = 255 → R1 a m k = R2 a m k) :
    instRead R1 s addr = instRead R2 s addr := by
  have hoff_lt : offset_of addr < ws := Nat.mod_lt _ (by decide)
  by_cases hs : s < ws
  · by_cases hov : offset_of addr + s ≤ ws
    · rw [instRead, instRead, if_pos hs, if_pos hov, if_pos hs, if_pos hov]
      unfold ReadSubword
      apply List.map_congr_left
      intro p hp
      have hp' : p < s := List.mem_range.mp hp
      have hmem : (base_of addr, make_mask (offset_of addr) (offset_of addr + s)) ∈
          instTrace s addr := by
        rw [instTrace, if_pos hs, if_pos hov]
        simp
      refine hagree _ _ hmem _ (by omega) ?_
      exact getByte_make_mask_sel (offset_of addr) (offset_of addr + s)
        (offset_of addr + p) (by omega) hov (by omega) (by omega) (by omega)
    · have hov' : ¬ offset_of addr + s ≤ ws := hov
      rw [instRead, instRead, if_pos hs, if_neg hov', if_pos hs, if_neg hov']
      refine readUnaligned_congr R1 R2 1 (offset_of addr) s (base_of addr)
        (le_refl 1) (by omega) hoff_lt (by omega) ?_
      intro a m hm k hk hsel
      refine hagree a m ?_ k hk hsel
      rw [instTrace, if_pos hs, if_neg hov']
      exact hm
  · have hdvd : ws ∣ s := hsup.resolve_left hs
    have hsN : s = ws * (s / ws) := (Nat.mul_div_cancel' hdvd).symm
    by_cases hoff : offset_of addr = 0
    · rw [instRead, instRead, if_neg hs, if_pos hoff, if_neg hs, if_pos hoff]
      refine readAligned_congr R1 R2 s (base_of addr) (s / ws) hsN ?_
      intro a m hm k hk hsel
      refine hagree a m ?_ k hk hsel
      rw [instTrace, if_neg hs, if_pos hoff]
      exact hm
    · rw [instRead, instRead, if_neg hs, if_neg hoff, if_neg hs, if_neg hoff]
      have hN : 1 ≤ s / ws := (Nat.one_le_div_iff (by decide)).mpr (not_lt.mp hs)
      refine readUnaligned_congr R1 R2 (s / ws) (offset_of addr) s (base_of addr)
        hN hoff hoff_lt (by omega) ?_
      intro a m hm k hk hsel
      refine hagree a m ?_ k hk hsel
      rw [instTrace, if_neg hs, if_neg hoff]
      exact hm

/-- Witness for C10: two oracles that agree on byte 7 (the only byte the
mask `[7, 8)` selects) but differ everywhere else give the same result for
the 1-byte read at byte offset 7. -/
theorem c10_read_masked_byte_dependence_witness :
    instRead (fun _ _ k => if k = 7 then 5 else 0) 1 7 =
      instRead (fun _ _ k => if k = 7 then 5 else 9) 1 7 := by
  refine c10_read_masked_byte_dependence 1 7 _ _ (by decide) (Or.inl (by decide)) ?_
  intro a m hm k hk hsel
  have htr : instTrace 1 7 = [(0, make_mask 7 8)] := by decide
  rw [htr] at hm
  simp only [List.mem_singleton, Prod.mk.injEq] at hm
  obtain ⟨rfl, rfl⟩ := hm
  have hk8 : k < 8 := hk
  interval_cases k <;> first
    | rfl
    | exact absurd hsel (by decide)

/-! ## Round-trip law for the itm2stm engine -/

/-- Helper: a masked write sets the selected bytes of the written word. -/
theorem tmwrite_same_word (mem : Mem) (a : Nat) (w : Nat → Nat) (mask r : Nat)
    (hr : r < 8) (hsel : getByte mask r = 255) :
    tmwrite mem a w mask (8 * a + r) = w r := by
  unfold tmwrite
  rw [if_pos ⟨by omega, by omega, by rwa [show 8 * a + r - 8 * a = r by omega]⟩,
    show 8 * a + r - 8 * a = r by omega]

/-- Helper: a masked write leaves bytes of other words untouched. -/
theorem tmwrite_other_word (mem : Mem) (a : Nat) (w : Nat → Nat) (mask p : Nat)
    (h : p < 8 * a ∨ 8 * a + 8 ≤ p) :
    tmwrite mem a w mask p = mem p := by
  unfold tmwrite
  rw [if_neg (by rintro ⟨h1, h2, -⟩; omega)]

/-- Helper: a masked write leaves unselected bytes of the written word
untouched. -/
theorem tmwrite_unselected (mem : Mem) (a : Nat) (w : Nat → Nat) (mask r : Nat)
    (hr : r < 8) (hsel : getByte mask r ≠ 255) :
    tmwrite mem a w mask (8 * a + r) = mem (8 * a + r) := by
  unfold tmwrite
  rw [if_neg (by
    rintro ⟨-, -, hc⟩
    rw [show 8 * a + r - 8 * a = r by omega] at hc
    exact hsel hc)]

/-- Helper: unfolding one step of the write loop. -/
theorem writeWordsFold_cons (mem : Mem) (base : Nat) (B : Nat → Nat)
    (im : Nat × Nat) (L : List (Nat × Nat)) :
    writeWordsFold mem base B (im :: L) =
      writeWordsFold (tmwrite mem (base + im.1) (fun k => B (ws * im.1 + k)) im.2)
        base B L := rfl

/-- Helper: a byte whose word/mask position is matched by no access of the
write loop is unchanged. -/
theorem writeWordsFold_untouched (base : Nat) (B : Nat → Nat) (q r : Nat)
    (hr : r < 8) :
    ∀ L : List (Nat × Nat),
      (∀ im ∈ L, im.1 = q → getByte im.2 r ≠ 255) →
      ∀ mem : Mem,
        writeWordsFold mem base B L (8 * (base + q) + r) = mem (8 * (base + q) + r) := by
  intro L
  induction L with
  | nil => intro _ mem; rfl
  | cons hd tl ih =>
    intro hnone mem
    rw [writeWordsFold_cons, ih (fun im h => hnone im (List.mem_cons_of_mem hd h))]
    by_cases hq : hd.1 = q
    · subst hq
      exact tmwrite_unselected mem _ _ _ r hr (hnone hd (List.mem_cons_self hd tl) rfl)
    · exact tmwrite_other_word mem _ _ _ _ (by omega)

/-- Helper: a byte selected by some access of the write loop ends up
holding the corresponding buffer byte. -/
theorem writeWordsFold_hit (base : Nat) (B : Nat → Nat) (q r : Nat) (hr : r < 8) :
    ∀ L : List (Nat × Nat),
      (∃ im ∈ L, im.1 = q ∧ getByte im.2 r = 255) →
      ∀ mem : Mem,
        writeWordsFold mem base B L (8 * (base + q) + r) = B (8 * q + r) := by
  intro L
  induction L with
  | nil => rintro ⟨im, him, -⟩; exact absurd him (List.not_mem_nil im)
  | cons hd tl ih =>
    intro hhit mem
    rw [writeWordsFold_cons]
    by_cases htl : ∃ im ∈ tl, im.1 = q ∧ getByte im.2 r = 255
    · exact ih htl _
    · obtain ⟨im, him, hq, hsel⟩ := hhit
      have him' : im = hd := by
        rcases List.mem_cons.mp him with h | h
        · exact h
        · exact absurd ⟨im, h, hq, hsel⟩ htl
      subst him'
      rw [writeWordsFold_untouched base B q r hr tl
        (fun jm hjm hjq => by
          by_contra hc
          exact htl ⟨jm, hjm, hjq, hc⟩)]
      rw [← hq]
      exact tmwrite_same_word mem _ _ _ r hr hsel

/-- Helper: the unaligned mask of the word containing target byte `t`
selects byte `t % 8`, whenever `off ≤ t < off + 8 * N`. -/
theorem unalignedMask_sel (N off t : Nat) (hN : 1 ≤ N) (hoff : off < 8)
    (hoff0 : off ≠ 0) (hlo : off ≤ t) (hhi : t < off + 8 * N) :
    getByte (unalignedMask N off (t / 8)) (t % 8) = 255 := by
  have hdm := Nat.div_add_mod t 8
  have hmlt : t % 8 < 8 := Nat.mod_lt _ (by decide)
  rcases Nat.eq_zero_or_pos (t / 8) with hq0 | hqpos
  · have ht8 : t < 8 := by
      by_contra hcon
      have h1 : 1 ≤ t / 8 := (Nat.one_le_div_iff (by decide)).mpr (by omega)
      omega
    have hmod : t % 8 = t := Nat.mod_eq_of_lt ht8
    rw [hq0]
    unfold unalignedMask
    rw [if_pos rfl]
    exact getByte_make_mask_sel off ws (t % 8) hoff (le_refl _) hmlt (by omega) hmlt
  · rcases Nat.lt_or_ge (t / 8) N with hqN | hqN
    · unfold unalignedMask
      rw [if_neg (by omega), if_pos hqN]
      exact getByte_make_mask_sel 0 ws (t % 8) (by decide) (le_refl _) hmlt
        (Nat.zero_le _) hmlt
    · have hqeq : t / 8 = N := by
        have h2 : t / 8 < N + 1 := Nat.div_lt_of_lt_mul (by omega)
        omega
      have hrlt : t % 8 < off := by omega
      unfold unalignedMask
      rw [if_neg (by omega), if_neg (by omega)]
      exact getByte_make_mask_sel 0 off (t % 8) (by omega) (Nat.le_of_lt hoff) hmlt
        (Nat.zero_le _) hrlt

/-- Helper: the word containing target byte `t < off + 8 * N` occurs in the
unaligned access sequence. -/
theorem unalignedMask_mem_idx (N off t : Nat) (hN : 1 ≤ N) (hoff : off < 8)
    (hhi : t < off + 8 * N) :
    (t / 8, unalignedMask N off (t / 8)) ∈ unalignedIdxMasks N off := by
  have hq : t / 8 ≤ N := by
    have h2 : t / 8 < N + 1 := Nat.div_lt_of_lt_mul (by omega)
    omega
  unfold unalignedIdxMasks unalignedMask
  rcases Nat.eq_zero_or_pos (t / 8) with hq0 | hpos
  · rw [hq0]
    simp
  · rcases Nat.lt_or_ge (t / 8) N with hlt | hge
    · rw [if_neg (by omega), if_pos hlt]
      simp only [List.mem_cons, List.mem_append, List.mem_map, List.mem_range]
      refine Or.inr (Or.inl ⟨t / 8 - 1, by omega, ?_⟩)
      simp only [Prod.mk.injEq]
      exact ⟨by omega, by trivial⟩
    · have hqN : t / 8 = N := by omega
      rw [hqN, if_neg (by omega), if_neg (by omega)]
      simp

/-- Helper: the unaligned write followed by the unaligned read over the
same base, offset and size recovers the value byte for byte. -/
theorem unaligned_roundtrip (mem : Mem) (N off s base : Nat) (v : Nat → Nat)
    (hN : 1 ≤ N) (hoff : off < 8) (hoff0 : off ≠ 0) (hs1 : 1 ≤ s)
    (hsN : s ≤ 8 * N) :
    ReadUnaligned (memOracle (WriteUnaligned mem N off s base v)) N off s base =
      valBytes s v := by
  unfold ReadUnaligned readUnalignedBuf valBytes memOracle memWord WriteUnaligned
  apply List.map_congr_left
  intro p hp
  have hp' : p < s := List.mem_range.mp hp
  have hdm := Nat.div_add_mod (off + p) 8
  have hmlt : (off + p) % 8 < 8 := Nat.mod_lt _ (by decide)
  have hqws : (off + p) / ws = (off + p) / 8 := rfl
  have hmws : (off + p) % ws = (off + p) % 8 := rfl
  rw [hqws, hmws]
  have hhit : ∃ im ∈ unalignedIdxMasks N off,
      im.1 = (off + p) / 8 ∧ getByte im.2 ((off + p) % 8) = 255 :=
    ⟨((off + p) / 8, unalignedMask N off ((off + p) / 8)),
      unalignedMask_mem_idx N off (off + p) hN hoff (by omega),
      rfl, unalignedMask_sel N off (off + p) hN hoff hoff0 (by omega) (by omega)⟩
  rw [show 8 * (base + (off + p) / 8) + (off + p) % 8 =
        8 * (base + (off + p) / 8) + (off + p) % 8 from rfl]
  rw [writeWordsFold_hit base (writeBuf off s v) ((off + p) / 8) ((off + p) % 8)
    hmlt (unalignedIdxMasks N off) hhit mem]
  unfold writeBuf
  rw [show 8 * ((off + p) / 8) + (off + p) % 8 = off + p by omega,
    if_pos ⟨by omega, by omega⟩, show off + p - off = p by omega]

/-- Helper: the aligned write followed by the aligned read recovers the
value byte for byte. -/
theorem aligned_roundtrip (mem : Mem) (N s base : Nat) (v : Nat → Nat)
    (hsN : s = 8 * N) :
    ReadAligned (memOracle (WriteAligned mem N base v)) s base = valBytes s v := by
  unfold ReadAligned valBytes memOracle memWord WriteAligned
  apply List.map_congr_left
  intro p hp
  have hp' : p < s := List.mem_range.mp hp
  have hdm := Nat.div_add_mod p 8
  have hmlt : p % 8 < 8 := Nat.mod_lt _ (by decide)
  have hqws : p / ws = p / 8 := rfl
  have hmws : p % ws = p % 8 := rfl
  rw [hqws, hmws]
  have hqlt : p / 8 < N := Nat.div_lt_of_lt_mul (by omega)
  have hhit : ∃ im ∈ alignedIdxMasks N,
      im.1 = p / 8 ∧ getByte im.2 (p % 8) = 255 := by
    refine ⟨(p / 8, make_mask 0 ws), ?_, rfl, ?_⟩
    · unfold alignedIdxMasks
      simp only [List.mem_map, List.mem_range]
      exact ⟨p / 8, hqlt, rfl⟩
    · exact getByte_make_mask_sel 0 ws (p % 8) (by decide) (le_refl _) hmlt
        (Nat.zero_le _) hmlt
  rw [writeWordsFold_hit base v (p / 8) (p % 8) hmlt (alignedIdxMasks N) hhit mem]
  rw [show 8 * (p / 8) + p % 8 = p by omega]

/-- Supporting round-trip law for C1: over a memory whose masked reads
return exactly the bytes last stored by the masked writes, the itm2stm
`INST` dispatch satisfies the round-trip law for every supported size and
every address — aligned, unaligned, subword and multiword. -/
theorem inst_write_read_roundtrip (mem : Mem) (s addr : Nat) (v : Nat → Nat)
    (hs1 : 1 ≤ s) (hsup : s < ws ∨ ws ∣ s) :
    instRead (memOracle (instWrite mem s addr v)) s addr = valBytes s v := by
  have hoff_lt : offset_of addr < ws := Nat.mod_lt _ (by decide)
  by_cases hs : s < ws
  · by_cases hov : offset_of addr + s ≤ ws
    · have hov8 : offset_of addr + s ≤ 8 := hov
      rw [instWrite, if_pos hs, if_pos hov, instRead, if_pos hs, if_pos hov]
      unfold ReadSubword WriteSubword valBytes memOracle memWord
      apply List.map_congr_left
      intro p hp
      have hp' : p < s := List.mem_range.mp hp
      rw [tmwrite_same_word mem _ _ _ (offset_of addr + p) (by omega)
        (getByte_make_mask_sel (offset_of addr) (offset_of addr + s)
          (offset_of addr + p) (by omega) hov (by omega) (by omega) (by omega))]
      unfold writeBuf
      rw [if_pos ⟨by omega, by omega⟩,
        show offset_of addr + p - offset_of addr = p by omega]
    · have hs8 : s < 8 := hs
      rw [instWrite, if_pos hs, if_neg hov, instRead, if_pos hs, if_neg hov]
      exact unaligned_roundtrip mem 1 (offset_of addr) s (base_of addr) v
        (le_refl 1) hoff_lt (by omega) hs1 (by omega)
  · have hdvd : ws ∣ s := hsup.resolve_left hs
    have hsN : s = ws * (s / ws) := (Nat.mul_div_cancel' hdvd).symm
    have hsN8 : s = 8 * (s / ws) := hsN
    have hN : 1 ≤ s / ws := (Nat.one_le_div_iff (by decide)).mpr (not_lt.mp hs)
    by_cases hoff : offset_of addr = 0
    · rw [instWrite, if_neg hs, if_pos hoff, instRead, if_neg hs, if_pos hoff]
      exact aligned_roundtrip mem (s / ws) s (base_of addr) v hsN8
    · rw [instWrite, if_neg hs, if_neg hoff, instRead, if_neg hs, if_neg hoff]
      exact unaligned_roundtrip mem (s / ws) (offset_of addr) s (base_of addr) v
        hN hoff_lt hoff hs1 (by omega)

end RSTM
